/-
Verification of the convex-set engine (polytopes, zonotopes) of this
repository against its natural-language specification.

The Python sources are shallowly embedded: matrices of rationals stand for
numpy float arrays, lists of constraint rows stand for the stacked `(A, b)`
and `(Ae, be)` systems, and Python `None` / absent equality systems are
modelled as empty row lists.  Functions of the repository keep their names
where Lean allows it.  Components that the repository references but whose
code is not present under src/ (the LP-backed support function, `project`,
`representsa`, the `constraints` conversion, scipy's minimizer) are taken as
parameters or definitions whose doc comments start with
`Modelled from the spec:`.
-/

import Mathlib

namespace Cora

/-- Dot product of two rational vectors indexed by `Fin n`. -/
def dot {n : ℕ} (a x : Fin n → ℚ) : ℚ := ∑ i, a i * x i

/-- One linear constraint row: coefficient vector `a` and offset `rhs`.
A row of `(A, b)` reads `a · x ≤ rhs`; a row of `(Ae, be)` reads
`a · x = rhs`. -/
structure LinCon (n : ℕ) where
  a : Fin n → ℚ
  rhs : ℚ

/-- H-representation of a polytope: inequality rows `(A, b)` and equality
rows `(Ae, be)`.  A Python `Ae is None` (or a zero-row `Ae`) is modelled as
`eqs = []`. -/
structure PolyH (n : ℕ) where
  ineqs : List (LinCon n)
  eqs : List (LinCon n)

/-- Inequality residuals `A·point − b` of `_contains_pointcloud`
(contains_.py, line 127), one entry per inequality row. -/
def ineqResiduals {n : ℕ} (P : PolyH n) (p : Fin n → ℚ) : List ℚ :=
  P.ineqs.map (fun c => dot c.a p - c.rhs)

/-- Absolute equality residuals `|Ae·point − be|` of `_contains_pointcloud`
(contains_.py, line 147). -/
def eqResiduals {n : ℕ} (P : PolyH n) (p : Fin n → ℚ) : List ℚ :=
  P.eqs.map (fun c => |dot c.a p - c.rhs|)

/-- Maximum of a list of rationals, as `np.max` computes it on a non-empty
array; every use below is guarded by a non-emptiness test exactly as the
source guards `np.max` by `shape[0] > 0`, so the value on `[]` is never
relevant. -/
def maxList : List ℚ → ℚ
  | [] => 0
  | x :: xs => xs.foldl max x

/-- Per-point containment decision of `_contains_pointcloud`
(contains_.py, lines 122–153): start from `is_contained = True`, flip it if
the inequality system is present with `max(A·p − b) > tol`, and flip it if
the equality system is present with `max|Ae·p − be| > tol`. -/
def pointContained {n : ℕ} (P : PolyH n) (p : Fin n → ℚ) (tol : ℚ) : Bool :=
  let ineqOk := P.ineqs.isEmpty || !(decide (maxList (ineqResiduals P p) > tol))
  let eqOk := P.eqs.isEmpty || !(decide (maxList (eqResiduals P p) > tol))
  ineqOk && eqOk

theorem foldl_max_le_iff (t : ℚ) :
    ∀ (l : List ℚ) (d : ℚ), l.foldl max d ≤ t ↔ d ≤ t ∧ ∀ y ∈ l, y ≤ t := by
  intro l
  induction l with
  | nil => intro d; simp
  | cons x xs ih =>
    intro d
    rw [List.foldl_cons, ih (max d x)]
    constructor
    · rintro ⟨hdx, hall⟩
      rcases max_le_iff.mp hdx with ⟨hd, hx⟩
      exact ⟨hd, by
        intro y hy
        rcases List.mem_cons.mp hy with h | h
        · exact h ▸ hx
        · exact hall y h⟩
    · rintro ⟨hd, hall⟩
      refine ⟨max_le hd (hall x (List.mem_cons_self x xs)), ?_⟩
      intro y hy
      exact hall y (List.mem_cons_of_mem x hy)

theorem maxList_le_iff {t : ℚ} {l : List ℚ} (h : l ≠ []) :
    maxList l ≤ t ↔ ∀ y ∈ l, y ≤ t := by
  cases l with
  | nil => exact absurd rfl h
  | cons x xs =>
    rw [maxList, foldl_max_le_iff]
    constructor
    · rintro ⟨hx, hall⟩ y hy
      rcases List.mem_cons.mp hy with h | h
      · exact h ▸ hx
      · exact hall y h
    · intro hall
      exact ⟨hall x (List.mem_cons_self x xs), fun y hy => hall y (List.mem_cons_of_mem x hy)⟩

/-- C1: the halfspace containment check reports a point contained iff every
inequality residual `A·p − b` is at most `tol` and every absolute equality
residual `|Ae·p − be|` is at most `tol` (`max` over an absent constraint
block imposing nothing); a point is contained exactly when neither
violation occurs. -/
theorem contains_pointcloud_halfspace_iff {n : ℕ} (P : PolyH n) (p : Fin n → ℚ) (tol : ℚ) :
    pointContained P p tol = true ↔
      (∀ c ∈ P.ineqs, dot c.a p - c.rhs ≤ tol) ∧
      (∀ c ∈ P.eqs, |dot c.a p - c.rhs| ≤ tol) := by
  unfold pointContained
  simp only [Bool.and_eq_true, Bool.or_eq_true, Bool.not_eq_true', decide_eq_false_iff_not,
    List.isEmpty_iff, not_lt]
  constructor
  · rintro ⟨h1, h2⟩
    constructor
    · rcases h1 with h1 | h1
      · intro c hc; rw [h1] at hc; exact absurd hc (List.not_mem_nil c)
      · intro c hc
        have hne : ineqResiduals P p ≠ [] := by
          simp only [ineqResiduals, ne_eq, List.map_eq_nil]
          intro hcon; rw [hcon] at hc; exact List.not_mem_nil c hc
        exact (maxList_le_iff hne).mp h1 _ (List.mem_map_of_mem _ hc)
    · rcases h2 with h2 | h2
      · intro c hc; rw [h2] at hc; exact absurd hc (List.not_mem_nil c)
      · intro c hc
        have hne : eqResiduals P p ≠ [] := by
          simp only [eqResiduals, ne_eq, List.map_eq_nil]
          intro hcon; rw [hcon] at hc; exact List.not_mem_nil c hc
        exact (maxList_le_iff hne).mp h2 _ (List.mem_map_of_mem _ hc)
  · rintro ⟨h1, h2⟩
    constructor
    · rcases List.eq_nil_or_concat P.ineqs with h | _
      · exact Or.inl h
      · by_cases hnil : P.ineqs = []
        · exact Or.inl hnil
        · refine Or.inr ((maxList_le_iff ?_).mpr ?_)
          · simpa [ineqResiduals, List.map_eq_nil] using hnil
          · intro y hy
            rcases List.mem_map.mp hy with ⟨c, hc, rfl⟩
            exact h1 c hc
    · by_cases hnil : P.eqs = []
      · exact Or.inl hnil
      · refine Or.inr ((maxList_le_iff ?_).mpr ?_)
        · simpa [eqResiduals, List.map_eq_nil] using hnil
        · intro y hy
          rcases List.mem_map.mp hy with ⟨c, hc, rfl⟩
          exact h2 c hc

/-- Numerical-significance threshold `1e-9` against which `np.linalg.norm(P.b)`
is compared (contains_.py, line 140). -/
def bNormThreshold : ℚ := 1 / 1000000000

/-- Euclidean norm `np.linalg.norm(P.b)` of the stacked inequality offsets
(contains_.py, line 139). -/
noncomputable def bNorm {n : ℕ} (P : PolyH n) : ℝ :=
  Real.sqrt (((P.ineqs.map (fun c => c.rhs ^ 2)).sum : ℚ) : ℝ)

/-- Value the inequality block of `_contains_pointcloud` leaves in
`scaling_factors[i]` (contains_.py, lines 133–143): untouched (`np.inf`,
modelled as `⊤`) when there are no inequality rows, `1` when the
inequalities hold within `tol`, and otherwise `1 + maxViolation/‖b‖` when
`‖b‖ > 1e-9` and `1 + maxViolation` when not. -/
noncomputable def ineqScaling {n : ℕ} (P : PolyH n) (p : Fin n → ℚ) (tol : ℚ) :
    WithTop ℝ :=
  if P.ineqs.isEmpty then ⊤
  else if maxList (ineqResiduals P p) > tol then
    if bNorm P > (bNormThreshold : ℝ) then
      (((1 + (maxList (ineqResiduals P p) : ℝ) / bNorm P : ℝ)) : WithTop ℝ)
    else (((1 + (maxList (ineqResiduals P p) : ℝ) : ℝ)) : WithTop ℝ)
  else (1 : WithTop ℝ)

/-- Per-point scaling factor of `_contains_pointcloud` with
`scalingToggle = True`: the value left by the inequality block, finally
clamped by `min · 1` on points reported contained
(contains_.py, lines 155–159). -/
noncomputable def pointScaling {n : ℕ} (P : PolyH n) (p : Fin n → ℚ) (tol : ℚ) :
    WithTop ℝ :=
  if pointContained P p tol then min (ineqScaling P p tol) 1 else ineqScaling P p tol

/-- Inequality part of `ceP`: the halfspace `x ≤ 1` in one dimension. -/
def ceIneq : LinCon 1 := ⟨fun _ => 1, 1⟩

/-- Equality part of `ceP`: the hyperplane `x = 0` in one dimension. -/
def ceEq : LinCon 1 := ⟨fun _ => 1, 0⟩

/-- Concrete polytope `{x : x ≤ 1, x = 0}` used to refute the claimed
scaling formula for non-contained points. -/
def ceP : PolyH 1 := ⟨[ceIneq], [ceEq]⟩

/-- Concrete query point `x = 1/2` violating only the equality constraint
of `ceP`. -/
def cep : Fin 1 → ℚ := fun _ => 1 / 2

theorem ceP_maxviol : maxList (ineqResiduals ceP cep) = -(1 / 2) := by
  unfold ineqResiduals ceP ceIneq cep maxList dot
  norm_num

theorem ceP_not_contained : pointContained ceP cep 0 = false := by
  have h : maxList (eqResiduals ceP cep) > 0 := by
    unfold eqResiduals ceP ceEq cep maxList dot
    norm_num
  have he : ceP.eqs.isEmpty = false := rfl
  simp only [pointContained]
  rw [he]
  simp [h]

theorem ceP_bNorm : bNorm ceP = 1 := by
  unfold bNorm
  rw [show ((((ceP.ineqs.map (fun c => c.rhs ^ 2)).sum : ℚ)) : ℝ) = 1 by
    norm_num [ceP, ceIneq]]
  exact Real.sqrt_one

/-- C7 (counterexample): at polytope `ceP` and point `cep` with `tol = 0`,
scaling requested, the point is not contained (its equality residual is
`1/2`), yet the reported scaling factor is `1.0` — set by the inequality
branch while the point still counted as contained — and not the claimed
`1 + maxViolation/‖b‖`, which here equals `1/2` since
`maxViolation = −1/2` and `‖b‖ = 1 > 1e-9`. -/
theorem contains_scaling_claim_false :
    pointContained ceP cep 0 = false ∧
    pointScaling ceP cep 0 = ((1 : ℝ) : WithTop ℝ) ∧
    bNorm ceP > (bNormThreshold : ℝ) ∧
    ((1 : ℝ) : WithTop ℝ) ≠
      (((1 + (maxList (ineqResiduals ceP cep) : ℝ) / bNorm ceP : ℝ)) : WithTop ℝ) := by
  refine ⟨ceP_not_contained, ?_, ?_, ?_⟩
  · unfold pointScaling
    rw [ceP_not_contained]
    simp only [Bool.false_eq_true, if_false]
    unfold ineqScaling
    rw [if_neg (by simp [ceP]), if_neg (by rw [ceP_maxviol]; norm_num)]
    simp
  · rw [ceP_bNorm]
    rw [show (bNormThreshold : ℝ) = ((1 : ℝ) / 1000000000) by
      unfold bNormThreshold; push_cast; norm_num]
    norm_num
  · rw [ceP_bNorm, ceP_maxviol]
    intro h
    rw [WithTop.coe_eq_coe] at h
    push_cast at h
    norm_num at h

/-- C7 (amended): with scaling requested, a contained point reports scaling
`1.0`; a point whose inequality violation exceeds `tol` reports
`1 + maxViolation/‖b‖` when `‖b‖ > 1e-9` and `1 + maxViolation` otherwise;
a non-contained point satisfying the inequalities within `tol` (violating
only equality constraints) reports `1.0` when inequality rows exist, and
`+∞` when there are none. -/
theorem contains_scaling_amended {n : ℕ} (P : PolyH n) (p : Fin n → ℚ) (tol : ℚ) :
    (pointContained P p tol = true → pointScaling P p tol = 1) ∧
    (P.ineqs ≠ [] → maxList (ineqResiduals P p) > tol →
      pointScaling P p tol =
        if bNorm P > (bNormThreshold : ℝ) then
          (((1 + (maxList (ineqResiduals P p) : ℝ) / bNorm P : ℝ)) : WithTop ℝ)
        else (((1 + (maxList (ineqResiduals P p) : ℝ) : ℝ)) : WithTop ℝ)) ∧
    (P.ineqs ≠ [] → pointContained P p tol = false →
      maxList (ineqResiduals P p) ≤ tol → pointScaling P p tol = 1) ∧
    (P.ineqs = [] → pointContained P p tol = false → pointScaling P p tol = ⊤) := by
  have hempty : P.ineqs.isEmpty = true ↔ P.ineqs = [] := List.isEmpty_iff
  refine ⟨?_, ?_, ?_, ?_⟩
  · intro hc
    unfold pointScaling
    rw [hc, if_pos rfl]
    by_cases he : P.ineqs.isEmpty
    · rw [ineqScaling, if_pos he]
      exact min_eq_right le_top
    · have hnv : ¬ maxList (ineqResiduals P p) > tol := by
        unfold pointContained at hc
        simp only [Bool.and_eq_true, Bool.or_eq_true, Bool.not_eq_true',
          decide_eq_false_iff_not] at hc
        rcases hc.1 with h | h
        · exact absurd h he
        · exact h
      rw [ineqScaling, if_neg he, if_neg hnv]
      exact min_self 1
  · intro hne hmv
    have he : ¬ P.ineqs.isEmpty = true := fun h => hne (hempty.mp h)
    have hc : pointContained P p tol = false := by
      unfold pointContained
      simp only [Bool.and_eq_false_iff, Bool.or_eq_false_iff]
      left
      refine ⟨by simpa using he, ?_⟩
      simpa using hmv
    unfold pointScaling
    rw [hc]
    simp only [Bool.false_eq_true, if_false]
    rw [ineqScaling, if_neg he, if_pos hmv]
  · intro hne hc hle
    have he : ¬ P.ineqs.isEmpty = true := fun h => hne (hempty.mp h)
    unfold pointScaling
    rw [hc]
    simp only [Bool.false_eq_true, if_false]
    rw [ineqScaling, if_neg he, if_neg (not_lt.mpr hle)]
  · intro hnil hc
    have he : P.ineqs.isEmpty = true := hempty.mpr hnil
    unfold pointScaling
    rw [hc]
    simp only [Bool.false_eq_true, if_false]
    rw [ineqScaling, if_pos he]

/-- Concrete polytope `{x : x ≤ 1}` exercising the contained branch of the
scaling computation. -/
def wInP : PolyH 1 := ⟨[ceIneq], []⟩

/-- Concrete equality-only polytope `{x : x = 0}` with no inequality rows. -/
def wEqP : PolyH 1 := ⟨[], [ceEq]⟩

theorem wInP_contained : pointContained wInP (fun _ => 0) 0 = true := by
  have h : ¬ maxList (ineqResiduals wInP (fun _ => 0)) > 0 := by
    unfold ineqResiduals wInP ceIneq maxList dot
    norm_num
  have he : wInP.eqs.isEmpty = true := rfl
  simp only [pointContained]
  rw [he]
  simp [h]

theorem wInP_viol_two : maxList (ineqResiduals wInP (fun _ => 2)) > 0 := by
  unfold ineqResiduals wInP ceIneq maxList dot
  norm_num

theorem wEqP_not_contained : pointContained wEqP (fun _ => 1) 0 = false := by
  have h : maxList (eqResiduals wEqP (fun _ => 1)) > 0 := by
    unfold eqResiduals wEqP ceEq maxList dot
    norm_num
  have he : wEqP.eqs.isEmpty = false := rfl
  simp only [pointContained]
  rw [he]
  simp [h]

/-- Witness for `contains_scaling_amended`: all four branches applied at
concrete inputs. -/
theorem contains_scaling_amended_witness :
    (pointContained wInP (fun _ => 0) 0 = true ∧
      pointScaling wInP (fun _ => 0) 0 = 1) ∧
    (wInP.ineqs ≠ [] ∧ maxList (ineqResiduals wInP (fun _ => 2)) > 0 ∧
      pointScaling wInP (fun _ => 2) 0 =
        if bNorm wInP > (bNormThreshold : ℝ) then
          (((1 + (maxList (ineqResiduals wInP (fun _ => 2)) : ℝ) / bNorm wInP : ℝ)) :
            WithTop ℝ)
        else (((1 + (maxList (ineqResiduals wInP (fun _ => 2)) : ℝ) : ℝ)) : WithTop ℝ)) ∧
    (ceP.ineqs ≠ [] ∧ pointContained ceP cep 0 = false ∧
      maxList (ineqResiduals ceP cep) ≤ 0 ∧ pointScaling ceP cep 0 = 1) ∧
    (wEqP.ineqs = [] ∧ pointContained wEqP (fun _ => 1) 0 = false ∧
      pointScaling wEqP (fun _ => 1) 0 = ⊤) :=
  ⟨⟨wInP_contained,
      (contains_scaling_amended wInP (fun _ => 0) 0).1 wInP_contained⟩,
    ⟨by simp [wInP], wInP_viol_two,
      (contains_scaling_amended wInP (fun _ => 2) 0).2.1 (by simp [wInP]) wInP_viol_two⟩,
    ⟨by simp [ceP], ceP_not_contained, by rw [ceP_maxviol]; norm_num,
      (contains_scaling_amended ceP cep 0).2.2.1 (by simp [ceP]) ceP_not_contained
        (by rw [ceP_maxviol]; norm_num)⟩,
    ⟨rfl, wEqP_not_contained,
      (contains_scaling_amended wEqP (fun _ => 1) 0).2.2.2 rfl wEqP_not_contained⟩⟩

/-- A set object passed to `contains_` (contains_.py, lines 66–84): its
`vertices()` method, with `none` standing for a raising or absent method,
and its `center()` value, with `none` standing for an absent method or a
`None` center. -/
structure SetInput (n : ℕ) where
  vertices : Option (List (Fin n → ℚ))
  center : Option (Fin n → ℚ)

/-- Argument `S` of `contains_`: a point cloud (`np.ndarray`, where a single
point is the one-column cloud) or a set object. -/
inductive ContainsArg (n : ℕ) where
  | points (pts : List (Fin n → ℚ))
  | setObj (S : SetInput n)

/-- Result of `_contains_pointcloud` (contains_.py, lines 87–166): per-point
containment flags, the certificate (always `True` on the return paths), and
per-point scaling factors; a missing `A` matrix (here `P? = none`) raises
`CORA:notSupported` (line 111), modelled as `Except.error`. -/
noncomputable def contains_pointcloud {n : ℕ} (P? : Option (PolyH n))
    (pts : List (Fin n → ℚ)) (tol : ℚ) :
    Except String (List Bool × Bool × List (WithTop ℝ)) :=
  match P? with
  | none => Except.error "CORA:notSupported"
  | some P =>
    Except.ok (pts.map (fun p => pointContained P p tol), true,
      pts.map (fun p => pointScaling P p tol))

/-- Dispatch of `contains_` (contains_.py, lines 62–84): a point cloud goes
to `_contains_pointcloud`; a set object is reduced to its vertices inside a
`try` whose failure (either of the vertices call or of the containment
check) falls through to the center point; a set without usable vertices or
center hits the default `(False, True, np.inf)` return. -/
noncomputable def contains_ {n : ℕ} (P? : Option (PolyH n)) (S : ContainsArg n)
    (tol : ℚ) : Except String (List Bool × Bool × List (WithTop ℝ)) :=
  match S with
  | .points pts => contains_pointcloud P? pts tol
  | .setObj s =>
    match s.vertices with
    | some vtx =>
      match contains_pointcloud P? vtx tol with
      | .ok r => .ok r
      | .error _ =>
        match s.center with
        | some c => contains_pointcloud P? [c] tol
        | none => .ok ([false], true, [⊤])
    | none =>
      match s.center with
      | some c => contains_pointcloud P? [c] tol
      | none => .ok ([false], true, [⊤])

/-- C9: on every non-raising path of `contains_` — point cloud, vertex
reduction of a set, conservative center-point fallback, and the default
not-contained path with scaling `+∞` — the returned certificate is `True`;
it is never `False`. -/
theorem contains_cert_always_true {n : ℕ} (P? : Option (PolyH n))
    (S : ContainsArg n) (tol : ℚ) (r : List Bool × Bool × List (WithTop ℝ))
    (h : contains_ P? S tol = .ok r) : r.2.1 = true := by
  have hpc : ∀ (pts : List (Fin n → ℚ)),
      contains_pointcloud P? pts tol = .ok r → r.2.1 = true := by
    intro pts hok
    cases P? with
    | none => exact absurd hok (by simp [contains_pointcloud])
    | some P =>
      simp only [contains_pointcloud, Except.ok.injEq] at hok
      rw [← hok]
  cases S with
  | points pts => exact hpc pts h
  | setObj s =>
    cases hv : s.vertices with
    | some vtx =>
      simp only [contains_, hv] at h
      cases hr : contains_pointcloud P? vtx tol with
      | ok r0 =>
        simp only [hr, Except.ok.injEq] at h
        exact hpc vtx (hr.trans (by rw [h]))
      | error e =>
        simp only [hr] at h
        cases hc : s.center with
        | some c =>
          simp only [hc] at h
          exact hpc [c] h
        | none =>
          simp only [hc, Except.ok.injEq] at h
          rw [← h]
    | none =>
      simp only [contains_, hv] at h
      cases hc : s.center with
      | some c =>
        simp only [hc] at h
        exact hpc [c] h
      | none =>
        simp only [hc, Except.ok.injEq] at h
        rw [← h]

/-- Witness for `contains_cert_always_true`: a concrete call on an empty
point cloud, whose certificate the theorem reports as `True`. -/
theorem contains_cert_always_true_witness :
    contains_ (some (⟨[], []⟩ : PolyH 1)) (.points []) 0 =
      .ok ([], true, []) ∧
    (([], true, []) : List Bool × Bool × List (WithTop ℝ)).2.1 = true :=
  ⟨rfl, contains_cert_always_true (some (⟨[], []⟩ : PolyH 1)) (.points []) 0
    ([], true, []) rfl⟩

/-- Extended rational value returned by the support function: the LP can be
infeasible (`neginf` for an upper bound — the empty-set signal), optimal
(`fin`), or unbounded (`posinf`). -/
inductive ExtQ where
  | neginf
  | fin (q : ℚ)
  | posinf
deriving DecidableEq

/-- Negation on extended rationals, as applied to the lower bounds when
assembling `b = [ub; -lb]`. -/
def negExt : ExtQ → ExtQ
  | .neginf => .posinf
  | .fin q => .fin (-q)
  | .posinf => .neginf

/-- Mode argument of `priv_supportFunc`: the strings `'upper'` / `'lower'`. -/
inductive SFMode where
  | upper
  | lower
deriving DecidableEq

/-- Modelled from the spec: `priv_supportFunc(A, b, Ae, be, e_i, mode)` —
missing from src/ — solves the LP `max/min eᵢᵗx` over the H-polytope and
returns the optimal value, `-∞`/`+∞` signalling infeasibility or
unboundedness.  `priv_box_H` takes it as the parameter `sf`, evaluated only
at the standard basis directions. -/
def SupportOracle (n : ℕ) : Type := Fin n → SFMode → ExtQ

/-- Loop of `priv_box_H` (priv_box_H.py, lines 65–80): for each basis index
compute the upper support value, short-circuit (`none`) as soon as one is
`-∞`, otherwise also record the lower support value. -/
def boxHLoop {n : ℕ} (sf : SupportOracle n) : List (Fin n) → Option (List ExtQ × List ExtQ)
  | [] => some ([], [])
  | i :: rest =>
    if sf i .upper = .neginf then none
    else
      match boxHLoop sf rest with
      | none => none
      | some (ubs, lbs) => some (sf i .upper :: ubs, sf i .lower :: lbs)

/-- Identity rows `np.eye(n)` stacked over `-np.eye(n)`
(priv_box_H.py, line 83). -/
def eyeStack (n : ℕ) : List (Fin n → ℚ) :=
  (List.finRange n).map (fun i j => if j = i then (1 : ℚ) else 0) ++
    (List.finRange n).map (fun i j => if j = i then (-1 : ℚ) else 0)

/-- `priv_box_H(A, b, Ae, be, n)` (priv_box_H.py): evaluates upper and lower
support values along the `n` basis directions, returning either the
zero-row system flagged empty, or `A = [I; -I]`, `b = [ub; -lb]` with
`empty = false`. -/
def priv_box_H {n : ℕ} (sf : SupportOracle n) : List (Fin n → ℚ) × List ExtQ × Bool :=
  match boxHLoop sf (List.finRange n) with
  | none => ([], [], true)
  | some (ubs, lbs) => (eyeStack n, ubs ++ lbs.map negExt, false)

theorem boxHLoop_none_iff {n : ℕ} (sf : SupportOracle n) :
    ∀ l : List (Fin n), boxHLoop sf l = none ↔ ∃ i ∈ l, sf i .upper = .neginf := by
  intro l
  induction l with
  | nil => simp [boxHLoop]
  | cons i rest ih =>
    by_cases hi : sf i .upper = .neginf
    · simp [boxHLoop, hi]
    · rw [boxHLoop, if_neg hi]
      cases hr : boxHLoop sf rest with
      | none =>
        simp only [List.mem_cons]
        constructor
        · intro _
          rcases (ih.mp hr) with ⟨j, hj, hv⟩
          exact ⟨j, Or.inr hj, hv⟩
        · intro _; trivial
      | some p =>
        constructor
        · intro h; exact absurd h (by simp)
        · rintro ⟨j, hj, hv⟩
          rcases List.mem_cons.mp hj with rfl | hj
          · exact absurd hv hi
          · exact absurd (ih.mpr ⟨j, hj, hv⟩) (by rw [hr]; simp)

theorem boxHLoop_some {n : ℕ} (sf : SupportOracle n) :
    ∀ l : List (Fin n), (∀ i ∈ l, sf i .upper ≠ .neginf) →
      boxHLoop sf l = some (l.map (fun i => sf i .upper), l.map (fun i => sf i .lower)) := by
  intro l
  induction l with
  | nil => intro _; rfl
  | cons i rest ih =>
    intro hall
    rw [boxHLoop, if_neg (hall i (List.mem_cons_self i rest)),
      ih (fun j hj => hall j (List.mem_cons_of_mem i hj))]
    rfl

/-- C5: the box-enclosure H-computation returns the zero-row system flagged
empty exactly when some upper support value along a basis direction is
`-∞`, and otherwise assembles `A = [I; -I]`, `b = [ub; -lb]` with
`empty = false`. -/
theorem priv_box_H_characterization {n : ℕ} (sf : SupportOracle n) :
    priv_box_H sf =
      if ∃ i : Fin n, sf i .upper = .neginf then ([], [], true)
      else (eyeStack n,
        (List.finRange n).map (fun i => sf i .upper) ++
          ((List.finRange n).map (fun i => sf i .lower)).map negExt, false) := by
  by_cases h : ∃ i : Fin n, sf i .upper = .neginf
  · rw [if_pos h]
    unfold priv_box_H
    rw [(boxHLoop_none_iff sf (List.finRange n)).mpr
      (by rcases h with ⟨i, hi⟩; exact ⟨i, List.mem_finRange i, hi⟩)]
  · rw [if_neg h]
    unfold priv_box_H
    rw [boxHLoop_some sf (List.finRange n)
      (fun i _ hv => h ⟨i, hv⟩)]

/-- Zonotope `{c + G·β : β ∈ [-1,1]^g}` in dimension `n`; the generator
matrix is kept as its list of columns. -/
structure Zono (n : ℕ) where
  c : Fin n → ℚ
  G : List (Fin n → ℚ)

/-- Generator energy `np.trace(G @ G.T)` of a zonotope
(priv_andAveraging.py, line 91): the sum of squared entries of `G`. -/
def traceGGT {n : ℕ} (Z : Zono n) : ℚ :=
  (Z.G.map (fun g => ∑ i, (g i) ^ 2)).sum

/-- `_catWeighted` (priv_andAveraging.py, lines 123–151): sum the weighted
centers, concatenate the weighted generator matrices, then divide both by
the sum of the weights. -/
def catWeighted {n : ℕ} (Zs : List (Zono n)) (w : List ℚ) :
    (Fin n → ℚ) × List (Fin n → ℚ) :=
  let c := (List.zipWith (fun (Z : Zono n) wi => wi • Z.c) Zs w).sum
  let G := (List.zipWith (fun (Z : Zono n) wi => Z.G.map (fun g => wi • g)) Zs w).join
  let ws := w.sum
  (fun i => c i / ws, G.map (fun g i => g i / ws))

/-- Closed-form `normGen` weights (priv_andAveraging.py, lines 86–95):
`wᵢ = sumofw / (tᵢ · Σⱼ 1/tⱼ)` with `tᵢ = trace(GᵢGᵢᵗ)`. -/
def normGenWeights {n : ℕ} (Zs : List (Zono n)) (sumofw : ℚ) : List ℚ :=
  let tVec := Zs.map traceGGT
  let invSum := (tVec.map (fun t => 1 / t)).sum
  tVec.map (fun t => sumofw / (t * invSum))

/-- Python argument that should be a list: `notList` models a value of any
other type, rejected by the `isinstance(Z_cell, list)` check. -/
inductive PyListArg (α : Type) where
  | ofList (l : List α)
  | notList

/-- Optional Python bool argument: omitted (`None`, to be defaulted), an
actual bool, or a value of another type rejected by
`isinstance(closedform, bool)`. -/
inductive PyBoolArg where
  | omitted
  | val (b : Bool)
  | notBool
deriving DecidableEq

/-- Optional Python numeric argument: omitted (`None`, to be defaulted), a
number, or a value of another type rejected by
`isinstance(sumofw, (int, float))`. -/
inductive PyNumArg where
  | omitted
  | val (q : ℚ)
  | notNum
deriving DecidableEq

/-- `priv_andAveraging` (priv_andAveraging.py): apply defaults
(`normGen`, closed form, weight sum 1), validate the arguments, compute the
weights — closed form for `normGen`, otherwise the external optimizer
`opt`, which stands for the `scipy.optimize.minimize` BFGS call seeded at
uniform weights (modelled from the spec as a parameter, since scipy is an
external capability) — and return the weighted-average zonotope. -/
def priv_andAveraging {n : ℕ} (opt : List (Zono n) → String → List ℚ)
    (Z_cell : PyListArg (Zono n)) (methodArg : Option String)
    (closedformArg : PyBoolArg) (sumofwArg : PyNumArg) :
    Except String (Zono n) :=
  let method := methodArg.getD "normGen"
  let closedform? : Option Bool :=
    match closedformArg with
    | .omitted => some true
    | .val b => some b
    | .notBool => none
  let sumofw? : Option ℚ :=
    match sumofwArg with
    | .omitted => some 1
    | .val q => some q
    | .notNum => none
  match Z_cell with
  | .notList => .error "Z_cell must be a non-empty list"
  | .ofList Zs =>
    if Zs.isEmpty then .error "Z_cell must be a non-empty list"
    else if ¬(method = "normGen" ∨ method = "radius" ∨ method = "volume") then
      .error "method must be normGen, radius, or volume"
    else
      match closedform? with
      | none => .error "closedform must be boolean"
      | some closedform =>
        match sumofw? with
        | none => .error "sumofw must be non-negative scalar"
        | some sumofw =>
          if sumofw < 0 then .error "sumofw must be non-negative scalar"
          else
            let w := if method = "normGen" ∧ closedform = true
              then normGenWeights Zs sumofw else opt Zs method
            let cg := catWeighted Zs w
            .ok ⟨cg.1, cg.2⟩

/-- C10: an empty or non-list zonotope argument, a method outside
`{normGen, radius, volume}`, a non-boolean closed-form flag, or a negative
(or non-numeric) weight sum makes `priv_andAveraging` raise a `ValueError`
before any weights or output zonotope are computed. -/
theorem andAveraging_validation {n : ℕ} (opt : List (Zono n) → String → List ℚ)
    (Z_cell : PyListArg (Zono n)) (methodArg : Option String)
    (closedformArg : PyBoolArg) (sumofwArg : PyNumArg)
    (hbad : Z_cell = .notList ∨ Z_cell = .ofList [] ∨
      (∃ m, methodArg = some m ∧ m ≠ "normGen" ∧ m ≠ "radius" ∧ m ≠ "volume") ∨
      closedformArg = .notBool ∨ sumofwArg = .notNum ∨
      (∃ q, sumofwArg = .val q ∧ q < 0)) :
    ∃ msg, priv_andAveraging opt Z_cell methodArg closedformArg sumofwArg =
      .error msg := by
  cases Z_cell with
  | notList => exact ⟨"Z_cell must be a non-empty list", rfl⟩
  | ofList Zs =>
    by_cases hz : Zs.isEmpty
    · exact ⟨"Z_cell must be a non-empty list", by
        simp only [priv_andAveraging]
        rw [if_pos hz]⟩
    · by_cases hm : (methodArg.getD "normGen" = "normGen" ∨
        methodArg.getD "normGen" = "radius" ∨ methodArg.getD "normGen" = "volume")
      · rcases hbad with h | h | ⟨m, hmm, h1, h2, h3⟩ | h | h | ⟨q, hq, hneg⟩
        · exact absurd h (by simp)
        · injection h with h
          rw [h] at hz
          exact absurd rfl hz
        · rw [hmm] at hm
          simp only [Option.getD_some] at hm
          rcases hm with h | h | h
          · exact absurd h h1
          · exact absurd h h2
          · exact absurd h h3
        · subst h
          exact ⟨"closedform must be boolean", by
            simp only [priv_andAveraging]
            rw [if_neg hz, if_neg (not_not_intro hm)]⟩
        · subst h
          cases closedformArg with
          | omitted =>
            exact ⟨"sumofw must be non-negative scalar", by
              simp only [priv_andAveraging]
              rw [if_neg hz, if_neg (not_not_intro hm)]⟩
          | val b =>
            exact ⟨"sumofw must be non-negative scalar", by
              simp only [priv_andAveraging]
              rw [if_neg hz, if_neg (not_not_intro hm)]⟩
          | notBool =>
            exact ⟨"closedform must be boolean", by
              simp only [priv_andAveraging]
              rw [if_neg hz, if_neg (not_not_intro hm)]⟩
        · subst hq
          cases closedformArg with
          | omitted =>
            exact ⟨"sumofw must be non-negative scalar", by
              simp only [priv_andAveraging]
              rw [if_neg hz, if_neg (not_not_intro hm)]
              simp [hneg]⟩
          | val b =>
            exact ⟨"sumofw must be non-negative scalar", by
              simp only [priv_andAveraging]
              rw [if_neg hz, if_neg (not_not_intro hm)]
              simp [hneg]⟩
          | notBool =>
            exact ⟨"closedform must be boolean", by
              simp only [priv_andAveraging]
              rw [if_neg hz, if_neg (not_not_intro hm)]⟩
      · exact ⟨"method must be normGen, radius, or volume", by
          simp only [priv_andAveraging]
          rw [if_neg hz, if_pos hm]⟩

/-- Witness for `andAveraging_validation`: the concrete call
`priv_andAveraging([], ...)` on an empty list errors. -/
theorem andAveraging_validation_witness :
    ∃ msg, priv_andAveraging (n := 1) (fun _ _ => []) (.ofList []) none
      .omitted .omitted = .error msg :=
  andAveraging_validation (fun _ _ => []) (.ofList []) none .omitted .omitted
    (Or.inr (Or.inl rfl))

/-- Set denoted by a zonotope (spec §3): `{c + Σₖ βₖ gₖ : |βₖ| ≤ 1}`, the
coefficients listed alongside the generator columns. -/
def zonoSet {n : ℕ} (Z : Zono n) : Set (Fin n → ℚ) :=
  {x | ∃ β : List ℚ, β.length = Z.G.length ∧ (∀ b ∈ β, |b| ≤ 1) ∧
    x = Z.c + (List.zipWith (fun b g => b • g) β Z.G).sum}

/-- Generator columns scaled by one half, as produced by weight `1/2` in
`_catWeighted`. -/
def halfGens {n : ℕ} (G : List (Fin n → ℚ)) : List (Fin n → ℚ) :=
  G.map (fun g => (1 / 2 : ℚ) • g)

theorem zipWith_smul_halfGens {n : ℕ} (β : List ℚ) :
    ∀ G : List (Fin n → ℚ),
      (List.zipWith (fun b g => b • g) β (halfGens G)).sum
        = (1 / 2 : ℚ) • (List.zipWith (fun b g => b • g) β G).sum := by
  induction β with
  | nil => intro G; simp
  | cons a β ih =>
    intro G
    cases G with
    | nil => simp [halfGens]
    | cons g G =>
      rw [halfGens, List.map_cons, List.zipWith_cons_cons, List.zipWith_cons_cons,
        List.sum_cons, List.sum_cons, smul_add]
      rw [show (List.map (fun g => ((1 : ℚ) / 2) • g) G) = halfGens G from rfl, ih G]
      congr 1
      rw [smul_smul, smul_smul, mul_comm]

theorem zipWith_avg_sum {n : ℕ} (β₁ : List ℚ) :
    ∀ (β₂ : List ℚ) (G : List (Fin n → ℚ)), β₁.length = β₂.length →
      (List.zipWith (fun b g => b • g)
          (List.zipWith (fun a b => (a + b) / 2) β₁ β₂) G).sum
        = (1 / 2 : ℚ) • (List.zipWith (fun b g => b • g) β₁ G).sum
          + (1 / 2 : ℚ) • (List.zipWith (fun b g => b • g) β₂ G).sum := by
  induction β₁ with
  | nil =>
    intro β₂ G h
    rw [List.length_nil] at h
    rw [(List.length_eq_zero.mp h.symm)]
    simp
  | cons a β₁ ih =>
    intro β₂ G h
    cases β₂ with
    | nil => exact absurd h (by simp)
    | cons b β₂ =>
      cases G with
      | nil => simp
      | cons g G =>
        rw [List.zipWith_cons_cons, List.zipWith_cons_cons, List.zipWith_cons_cons,
          List.zipWith_cons_cons, List.sum_cons, List.sum_cons, List.sum_cons,
          ih β₂ G (by simpa using h), smul_add, smul_add]
        have hs : ((a + b) / 2) • g
            = (1 / 2 : ℚ) • (a • g) + (1 / 2 : ℚ) • (b • g) := by
          rw [smul_smul, smul_smul, ← add_smul]
          congr 1
          ring
        rw [hs]
        abel

theorem zipWith_avg_bound (β₁ : List ℚ) :
    ∀ β₂ : List ℚ, (∀ a ∈ β₁, |a| ≤ 1) → (∀ b ∈ β₂, |b| ≤ 1) →
      ∀ d ∈ List.zipWith (fun a b => (a + b) / 2) β₁ β₂, |d| ≤ 1 := by
  induction β₁ with
  | nil => intro β₂ _ _ d hd; simp at hd
  | cons a β₁ ih =>
    intro β₂ h₁ h₂ d hd
    cases β₂ with
    | nil => simp at hd
    | cons b β₂ =>
      rw [List.zipWith_cons_cons] at hd
      rcases List.mem_cons.mp hd with rfl | hd
      · have ha : |a| ≤ 1 := h₁ a (List.mem_cons_self a β₁)
        have hb : |b| ≤ 1 := h₂ b (List.mem_cons_self b β₂)
        calc |(a + b) / 2| = |a + b| / 2 := by
              rw [abs_div]; norm_num
          _ ≤ (|a| + |b|) / 2 := by
              have := abs_add a b
              linarith
          _ ≤ 1 := by linarith
      · exact ih β₂ (fun x hx => h₁ x (List.mem_cons_of_mem a hx))
          (fun x hx => h₂ x (List.mem_cons_of_mem b hx)) d hd

/-- Duplicating the halved generator columns leaves the represented set
unchanged: `⟨c, [G/2 | G/2]⟩` and `⟨c, G⟩` denote the same zonotope. -/
theorem zonoSet_halfDouble {n : ℕ} (Z : Zono n) :
    zonoSet ⟨Z.c, halfGens Z.G ++ halfGens Z.G⟩ = zonoSet Z := by
  have hlh : (halfGens Z.G).length = Z.G.length := by simp [halfGens]
  ext x
  constructor
  · rintro ⟨β, hlen, hb, rfl⟩
    simp only [List.length_append, hlh] at hlen
    have htake : (β.take Z.G.length).length = Z.G.length := by
      rw [List.length_take]
      omega
    have hdrop : (β.drop Z.G.length).length = Z.G.length := by
      rw [List.length_drop]
      omega
    refine ⟨List.zipWith (fun a b => (a + b) / 2)
      (β.take Z.G.length) (β.drop Z.G.length), ?_, ?_, ?_⟩
    · rw [List.length_zipWith, htake, hdrop]
      exact min_self _
    · exact zipWith_avg_bound _ _
        (fun a ha => hb a (List.mem_of_mem_take ha))
        (fun a ha => hb a (List.mem_of_mem_drop ha))
    · have hsplit : β = β.take Z.G.length ++ β.drop Z.G.length :=
        (List.take_append_drop _ β).symm
      conv_lhs => rw [hsplit]
      rw [List.zipWith_append _ _ _ _ _ (by rw [htake, hlh]), List.sum_append,
        zipWith_smul_halfGens, zipWith_smul_halfGens,
        zipWith_avg_sum _ _ _ (by rw [htake, hdrop])]
  · rintro ⟨β, hlen, hb, rfl⟩
    refine ⟨β ++ β, ?_, ?_, ?_⟩
    · simp [hlh, hlen]
    · intro b hbm
      rcases List.mem_append.mp hbm with h | h
      · exact hb b h
      · exact hb b h
    · rw [List.zipWith_append _ _ _ _ _ (by rw [hlen, hlh]), List.sum_append,
        zipWith_smul_halfGens, ← add_smul]
      norm_num

theorem normGenWeights_selfPair {n : ℕ} (Z : Zono n) (ht : traceGGT Z ≠ 0) :
    normGenWeights [Z, Z] 1 = [1 / 2, 1 / 2] := by
  unfold normGenWeights
  simp only [List.map_cons, List.map_nil, List.sum_cons, List.sum_nil]
  have h : traceGGT Z * (1 / traceGGT Z + (1 / traceGGT Z + 0)) = 2 := by
    field_simp
    ring
  rw [h]

theorem catWeighted_selfPair {n : ℕ} (Z : Zono n) :
    catWeighted [Z, Z] [1 / 2, 1 / 2] = (Z.c, halfGens Z.G ++ halfGens Z.G) := by
  have hws : ((1 : ℚ) / 2 + (1 / 2 + 0)) = 1 := by norm_num
  unfold catWeighted
  simp only [List.zipWith_cons_cons, List.zipWith_nil_right, List.sum_cons,
    List.sum_nil, hws]
  rw [Prod.mk.injEq]
  constructor
  · funext i
    simp only [Pi.add_apply, Pi.smul_apply, Pi.zero_apply, smul_eq_mul, div_one]
    ring
  · rw [show (fun (g : Fin n → ℚ) (i : Fin n) => g i / 1) = fun g => g by
      funext g i; exact div_one _]
    simp [halfGens]
    rfl

/-- C6: for a zonotope `Z` with nonzero generator energy `trace(G Gᵗ)`,
`priv_andAveraging` on `[Z, Z]` with `normGen`, the closed form and weight
sum `1` computes the closed-form weights `(1/2, 1/2)` and returns the
zonotope with center `Σwᵢcᵢ/Σw = Z.c` and generators
`[w₁G | w₂G]/Σw = [G/2 | G/2]`, which is equal to `Z` as a set. -/
theorem andAveraging_selfPair {n : ℕ} (opt : List (Zono n) → String → List ℚ)
    (Z : Zono n) (ht : traceGGT Z ≠ 0) :
    normGenWeights [Z, Z] 1 = [1 / 2, 1 / 2] ∧
    priv_andAveraging opt (.ofList [Z, Z]) (some "normGen") (.val true) (.val 1)
      = .ok ⟨Z.c, halfGens Z.G ++ halfGens Z.G⟩ ∧
    zonoSet ⟨Z.c, halfGens Z.G ++ halfGens Z.G⟩ = zonoSet Z := by
  have hw := normGenWeights_selfPair Z ht
  refine ⟨hw, ?_, zonoSet_halfDouble Z⟩
  simp only [priv_andAveraging, Option.getD_some]
  norm_num
  rw [hw, catWeighted_selfPair Z]
  exact ⟨rfl, rfl⟩

/-- Concrete one-dimensional zonotope with center `0` and single generator
`1`, whose generator energy is `1`. -/
def Zw : Zono 1 := ⟨fun _ => 0, [fun _ => 1]⟩

theorem Zw_trace_ne : traceGGT Zw ≠ 0 := by
  unfold traceGGT Zw
  norm_num

/-- Witness for `andAveraging_selfPair` at the concrete zonotope `Zw`. -/
theorem andAveraging_selfPair_witness :
    traceGGT Zw ≠ 0 ∧
    (normGenWeights [Zw, Zw] 1 = [1 / 2, 1 / 2] ∧
     priv_andAveraging (fun _ _ => []) (.ofList [Zw, Zw]) (some "normGen")
       (.val true) (.val 1) = .ok ⟨Zw.c, halfGens Zw.G ++ halfGens Zw.G⟩ ∧
     zonoSet ⟨Zw.c, halfGens Zw.G ++ halfGens Zw.G⟩ = zonoSet Zw) :=
  ⟨Zw_trace_ne, andAveraging_selfPair (fun _ _ => []) Zw Zw_trace_ne⟩

/-- Shape-carrying model of a numpy array: `np.zeros((rows, cols))` and
friends, with rational entries. -/
structure NpArr where
  rows : ℕ
  cols : ℕ
  entry : Fin rows → Fin cols → ℚ

/-- A zonotope object as `zonotope.empty` builds it (empty.py, lines 52–55):
the `precedence`, center and generator-matrix fields assigned on the fresh
object. -/
structure ZonotopeObj where
  precedence : ℕ
  c : NpArr
  G : NpArr

/-- `zonotope.empty(n)` (empty.py): the distinguished empty-zonotope
sentinel with `c = np.zeros((n, 0))`, `G = np.zeros((n, 0))` and
`precedence = 110`. -/
def zonotope_empty (n : ℕ) : ZonotopeObj :=
  { precedence := 110,
    c := ⟨n, 0, fun _ j => j.elim0⟩,
    G := ⟨n, 0, fun _ j => j.elim0⟩ }

/-- C8 (counterexample): the center of `zonotope.empty(2)` has two rows,
not zero rows — `np.zeros((n, 0))` has `n` rows and zero columns, so the
claim that `c` has zero rows fails at `n = 2`. -/
theorem zonotope_empty_rows_claim_false :
    (zonotope_empty 2).c.rows = 2 ∧ (2 : ℕ) ≠ 0 :=
  ⟨rfl, by norm_num⟩

/-- C8 (amended): for every `n`, the empty-zonotope constructor returns the
distinguished zero-generator sentinel whose center `c` has zero columns and
`n` rows — the ambient dimension `n` is preserved as the row count and the
point count is zero — with a generator matrix that likewise has `n` rows
and zero columns. -/
theorem zonotope_empty_shape (n : ℕ) :
    (zonotope_empty n).c.rows = n ∧ (zonotope_empty n).c.cols = 0 ∧
    (zonotope_empty n).G.rows = n ∧ (zonotope_empty n).G.cols = 0 :=
  ⟨rfl, rfl, rfl, rfl⟩

/-- Polytope operand as `plus` sees it: the representation flags
`_isHRep` / `_isVRep` recorded before the `representsa` calls
(plus.py, lines 113–116), with the corresponding H- and V-data. -/
structure Poly (n : ℕ) where
  isHRep : Bool
  isVRep : Bool
  h : PolyH n
  V : List (Fin n → ℚ)

/-- Special-set kinds tested by the `representsa` calls of `plus`. -/
inductive SpecialKind where
  | fullspace
  | emptySet
  | origin
deriving DecidableEq

/-- Modelled from the spec: `representsa(P, kind, tol)` — missing from
src/ — reports within tolerance `tol` whether a polytope represents the
full space, the empty set, or the origin; `plus` takes it as the oracle
parameter `rep`. -/
def RepOracle (n : ℕ) : Type := Poly n → SpecialKind → ℚ → Bool

/-- Modelled from the spec: the `constraints` conversion
(ConversionEngine's `toH`, spec §4.2) — missing from src/ — returning the
polytope with its H-representation populated; the forced-conversion branch
of `plus` takes it as the parameter `toH`. -/
def ToHOracle (n : ℕ) : Type := Poly n → Poly n

/-- Tolerance `1e-10` of the special-case checks of `plus`
(plus.py, line 107). -/
def plusTol : ℚ := 1 / 10000000000

/-- `_aux_plus_Vpoly_Vpoly` (plus.py, lines 49–62): all pairwise vertex
sums `V1[:, j] + V2[:, i]`, the outer loop running over the columns of
`V2` and the inner over `V1`, filling column `i·|V1| + j`. -/
def aux_plus_Vpoly_Vpoly {n : ℕ} (V1 V2 : List (Fin n → ℚ)) : List (Fin n → ℚ) :=
  V2.flatMap (fun w => V1.map (fun v => v + w))

/-- `_aux_plus_Hpoly_Hpoly` (plus.py, lines 15–47): the lifted block system
over the doubled variable vector — inequalities `A = [[A2, −A2], [0, A1]]`,
`b = [b2; b1]`, and the four equality-block combinations exactly as the
source builds them (both operands: `[[Ae2, −Ae2], [0, Ae1]]`,
`be = [be2; be1]`; only `P1`: `[[0, Ae1]]`; only `P2`: `[[Ae2, 0]]`;
neither: none).  The caller projects the result onto the first `n`
coordinates. -/
def aux_plus_Hpoly_Hpoly {n : ℕ} (P1 P2 : PolyH n) : PolyH (n + n) :=
  { ineqs :=
      P2.ineqs.map (fun c => ⟨Fin.append c.a (fun j => -(c.a j)), c.rhs⟩) ++
        P1.ineqs.map (fun c => ⟨Fin.append (fun _ => (0 : ℚ)) c.a, c.rhs⟩),
    eqs :=
      if ¬P1.eqs.isEmpty ∧ ¬P2.eqs.isEmpty then
        P2.eqs.map (fun c => ⟨Fin.append c.a (fun j => -(c.a j)), c.rhs⟩) ++
          P1.eqs.map (fun c => ⟨Fin.append (fun _ => (0 : ℚ)) c.a, c.rhs⟩)
      else if ¬P1.eqs.isEmpty then
        P1.eqs.map (fun c => ⟨Fin.append (fun _ => (0 : ℚ)) c.a, c.rhs⟩)
      else if ¬P2.eqs.isEmpty then
        P2.eqs.map (fun c => ⟨Fin.append c.a (fun _ => (0 : ℚ)), c.rhs⟩)
      else [] }

/-- Point set of an H-representation: all points satisfying every
inequality and equality row. -/
def hSet {m : ℕ} (P : PolyH m) : Set (Fin m → ℚ) :=
  {x | (∀ c ∈ P.ineqs, dot c.a x ≤ c.rhs) ∧ ∀ c ∈ P.eqs, dot c.a x = c.rhs}

/-- Modelled from the spec: `project(P, 1..n)` — missing from src/ — the
projection of a `2n`-variable polytope onto its first `n` coordinates
(spec §4.6, elimination of the auxiliary block). -/
def projectFirst (n : ℕ) (S : Set (Fin (n + n) → ℚ)) : Set (Fin n → ℚ) :=
  {x | ∃ y ∈ S, ∀ i : Fin n, x i = y (Fin.castAdd n i)}

/-- Minkowski sum of two point sets (spec glossary). -/
def minkSum {n : ℕ} (S T : Set (Fin n → ℚ)) : Set (Fin n → ℚ) :=
  {x | ∃ u ∈ S, ∃ v ∈ T, x = u + v}

/-- Result of `plus` on two polytope operands: `Polytope.Inf(n)`,
`Polytope.empty(n)` (constructors not under src/), a returned operand, the
V-representation of the V/V path, or the lifted H-system of the H/H path,
to which `project` onto the first `n` coordinates applies. -/
inductive PlusRes (n : ℕ) where
  | infSpace
  | emptySet
  | operand (p : Poly n)
  | vpoly (V : List (Fin n → ℚ))
  | hproj (Q : PolyH (n + n))

/-- `plus(p1, p2)` on two polytope operands (plus.py, lines 111–141): test
the special cases with tolerance `1e-10` in source order, then dispatch on
the originally recorded representation flags — V/V, H/H, or forced
conversion through `constraints` (`toH`). -/
def plus {n : ℕ} (rep : RepOracle n) (toH : ToHOracle n) (p1 p2 : Poly n) :
    PlusRes n :=
  if rep p1 .fullspace plusTol || rep p2 .fullspace plusTol then .infSpace
  else if rep p1 .emptySet plusTol || rep p2 .emptySet plusTol then .emptySet
  else if rep p1 .origin plusTol then .operand p2
  else if rep p2 .origin plusTol then .operand p1
  else if p1.isVRep && p2.isVRep then .vpoly (aux_plus_Vpoly_Vpoly p1.V p2.V)
  else if p1.isHRep && p2.isHRep then .hproj (aux_plus_Hpoly_Hpoly p1.h p2.h)
  else .hproj (aux_plus_Hpoly_Hpoly (toH p1).h (toH p2).h)

/-- C4: `plus` checks the special cases first with tolerance `1e-10`:
either operand representing the full space yields the full space; failing
that, either representing the empty set yields the empty set; failing
that, an operand representing the origin returns the other operand
unchanged — in particular `plus(P, origin-polytope) = P`, the origin being
an identity element of the Minkowski sum. -/
theorem plus_special_cases {n : ℕ} (rep : RepOracle n) (toH : ToHOracle n)
    (p1 p2 : Poly n) :
    ((rep p1 .fullspace plusTol = true ∨ rep p2 .fullspace plusTol = true) →
      plus rep toH p1 p2 = .infSpace) ∧
    (rep p1 .fullspace plusTol = false → rep p2 .fullspace plusTol = false →
      (rep p1 .emptySet plusTol = true ∨ rep p2 .emptySet plusTol = true) →
      plus rep toH p1 p2 = .emptySet) ∧
    (rep p1 .fullspace plusTol = false → rep p2 .fullspace plusTol = false →
      rep p1 .emptySet plusTol = false → rep p2 .emptySet plusTol = false →
      rep p1 .origin plusTol = true → plus rep toH p1 p2 = .operand p2) ∧
    (rep p1 .fullspace plusTol = false → rep p2 .fullspace plusTol = false →
      rep p1 .emptySet plusTol = false → rep p2 .emptySet plusTol = false →
      rep p1 .origin plusTol = false → rep p2 .origin plusTol = true →
      plus rep toH p1 p2 = .operand p1) := by
  refine ⟨?_, ?_, ?_, ?_⟩
  · intro h
    unfold plus
    rw [if_pos (by rcases h with h | h <;> simp [h])]
  · intro hf1 hf2 h
    unfold plus
    rw [if_neg (by simp [hf1, hf2]), if_pos (by rcases h with h | h <;> simp [h])]
  · intro hf1 hf2 he1 he2 ho1
    unfold plus
    rw [if_neg (by simp [hf1, hf2]), if_neg (by simp [he1, he2]), if_pos (by simp [ho1])]
  · intro hf1 hf2 he1 he2 ho1 ho2
    unfold plus
    rw [if_neg (by simp [hf1, hf2]), if_neg (by simp [he1, he2]),
      if_neg (by simp [ho1]), if_pos (by simp [ho2])]

/-- Concrete V-representation operand used in witnesses, flagged `_isVRep`
with the single vertex `1`. -/
def pV1 : Poly 1 := ⟨false, true, ⟨[], []⟩, [fun _ => 1]⟩

/-- Second concrete V-representation operand, with the single vertex `2`. -/
def pV2 : Poly 1 := ⟨false, true, ⟨[], []⟩, [fun _ => 2]⟩

/-- Concrete H-flagged operand used in witnesses. -/
def pH1 : Poly 1 := ⟨true, false, ⟨[], []⟩, []⟩

/-- Oracle answering `true` exactly for the queried kind on V-flagged
polytopes, used to drive the special-case branches in witnesses. -/
def repKindOnV (k : SpecialKind) : RepOracle 1 :=
  fun p k' _ => decide (k' = k) && p.isVRep

/-- Witness for `plus_special_cases`: all four special-case branches driven
at concrete oracles and operands. -/
theorem plus_special_cases_witness :
    (plus (repKindOnV .fullspace) (fun p => p) pV1 pH1 = .infSpace) ∧
    (plus (repKindOnV .emptySet) (fun p => p) pV1 pH1 = .emptySet) ∧
    (plus (repKindOnV .origin) (fun p => p) pV1 pH1 = .operand pH1) ∧
    (plus (repKindOnV .origin) (fun p => p) pH1 pV1 = .operand pH1) :=
  ⟨(plus_special_cases (repKindOnV .fullspace) (fun p => p) pV1 pH1).1
      (Or.inl rfl),
    (plus_special_cases (repKindOnV .emptySet) (fun p => p) pV1 pH1).2.1
      rfl rfl (Or.inl rfl),
    (plus_special_cases (repKindOnV .origin) (fun p => p) pV1 pH1).2.2.1
      rfl rfl rfl rfl rfl,
    (plus_special_cases (repKindOnV .origin) (fun p => p) pH1 pV1).2.2.2
      rfl rfl rfl rfl rfl rfl⟩

theorem flatMap_map_getElem {α β γ : Type} (V1 : List α) (f : α → γ → β) :
    ∀ (V2 : List γ) (i j : ℕ), j < V1.length →
      (V2.flatMap (fun w => V1.map (fun v => f v w)))[i * V1.length + j]? =
        (V2[i]?).bind (fun w => (V1[j]?).map (fun v => f v w)) := by
  intro V2
  induction V2 with
  | nil => intro i j _; simp
  | cons w V2 ih =>
    intro i j hj
    rw [List.flatMap_cons]
    cases i with
    | zero =>
      rw [Nat.zero_mul, Nat.zero_add,
        List.getElem?_append_left (by simpa using hj), List.getElem?_map]
      simp
    | succ i =>
      have hidx : (i + 1) * V1.length + j
          = (V1.map (fun v => f v w)).length + (i * V1.length + j) := by
        rw [List.length_map, Nat.succ_mul]
        omega
      rw [hidx, List.getElem?_append_right (Nat.le_add_right _ _),
        Nat.add_sub_cancel_left, ih i j hj]
      simp

theorem aux_plus_Vpoly_Vpoly_length {n : ℕ} (V1 V2 : List (Fin n → ℚ)) :
    (aux_plus_Vpoly_Vpoly V1 V2).length = V1.length * V2.length := by
  unfold aux_plus_Vpoly_Vpoly
  induction V2 with
  | nil => simp
  | cons w V2 ih =>
    rw [List.flatMap_cons, List.length_append, List.length_map, ih,
      List.length_cons]
    ring

/-- C3: when both operands carry V-representations and no special case
matches, `plus` returns the V-polytope of `_aux_plus_Vpoly_Vpoly`, whose
vertex list has exactly `|V1|·|V2|` columns — column `i·|V1| + j` being
`V1[j] + V2[i]`, one per pair, with no convex-hull reduction applied. -/
theorem plus_VV_pairwise {n : ℕ} (rep : RepOracle n) (toH : ToHOracle n)
    (p1 p2 : Poly n)
    (hf1 : rep p1 .fullspace plusTol = false)
    (hf2 : rep p2 .fullspace plusTol = false)
    (he1 : rep p1 .emptySet plusTol = false)
    (he2 : rep p2 .emptySet plusTol = false)
    (ho1 : rep p1 .origin plusTol = false)
    (ho2 : rep p2 .origin plusTol = false)
    (hv1 : p1.isVRep = true) (hv2 : p2.isVRep = true) :
    plus rep toH p1 p2 = .vpoly (aux_plus_Vpoly_Vpoly p1.V p2.V) ∧
    (aux_plus_Vpoly_Vpoly p1.V p2.V).length = p1.V.length * p2.V.length ∧
    ∀ i j : ℕ, j < p1.V.length →
      (aux_plus_Vpoly_Vpoly p1.V p2.V)[i * p1.V.length + j]? =
        (p2.V[i]?).bind (fun w => (p1.V[j]?).map (fun v => v + w)) := by
  refine ⟨?_, aux_plus_Vpoly_Vpoly_length p1.V p2.V,
    fun i j hj => flatMap_map_getElem p1.V (fun v w => v + w) p2.V i j hj⟩
  unfold plus
  rw [if_neg (by simp [hf1, hf2]), if_neg (by simp [he1, he2]),
    if_neg (by simp [ho1]), if_neg (by simp [ho2]), if_pos (by simp [hv1, hv2])]

/-- Oracle reporting no special case for any operand. -/
def repFalse : RepOracle 1 := fun _ _ _ => false

/-- Witness for `plus_VV_pairwise` at two concrete single-vertex
V-polytopes. -/
theorem plus_VV_pairwise_witness :
    plus repFalse (fun p => p) pV1 pV2 = .vpoly (aux_plus_Vpoly_Vpoly pV1.V pV2.V) ∧
    (aux_plus_Vpoly_Vpoly pV1.V pV2.V).length = pV1.V.length * pV2.V.length ∧
    (aux_plus_Vpoly_Vpoly pV1.V pV2.V)[0 * pV1.V.length + 0]? =
      (pV2.V[0]?).bind (fun w => (pV1.V[0]?).map (fun v => v + w)) :=
  have h := plus_VV_pairwise repFalse (fun p => p) pV1 pV2
    rfl rfl rfl rfl rfl rfl rfl rfl
  ⟨h.1, h.2.1, h.2.2 0 0 (by decide)⟩

/-- One-dimensional operand `P1 = {x : x ≤ 1, −x ≤ 0}` — the interval
`[0, 1]`, inequalities only. -/
def bugP1 : PolyH 1 := ⟨[⟨fun _ => 1, 1⟩, ⟨fun _ => -1, 0⟩], []⟩

/-- One-dimensional operand `P2 = {x : x = 1}`, an equality constraint
only. -/
def bugP2 : PolyH 1 := ⟨[], [⟨fun _ => 1, 1⟩]⟩

theorem bug_aux_eqs :
    (aux_plus_Hpoly_Hpoly bugP1 bugP2).eqs =
      [⟨Fin.append (fun _ => (1 : ℚ)) (fun _ => (0 : ℚ)), 1⟩] := by
  rfl

/-- C2 (code bug): the Minkowski sum `bugP1 ⊕ bugP2 = [1, 2]` contains the
point `2`, but the projection of the lifted system built by
`_aux_plus_Hpoly_Hpoly` does not: when only `P2` carries equality
constraints the code emits the block `[Ae2, 0]` instead of the analogous
`[Ae2, −Ae2]`, pinning the output coordinate itself to `be2 = 1`, so the
computed set is `{1}` rather than `[1, 2]`. -/
theorem plus_HH_only_P2_equality_bug :
    (fun _ : Fin 1 => (2 : ℚ)) ∈ minkSum (hSet bugP1) (hSet bugP2) ∧
    (fun _ : Fin 1 => (2 : ℚ)) ∉
      projectFirst 1 (hSet (aux_plus_Hpoly_Hpoly bugP1 bugP2)) := by
  constructor
  · refine ⟨fun _ => 1, ⟨?_, ?_⟩, fun _ => 1, ⟨?_, ?_⟩, ?_⟩
    · intro c hc
      rcases List.mem_cons.mp hc with rfl | hc
      · unfold dot; norm_num
      · rcases List.mem_cons.mp hc with rfl | hc
        · unfold dot; norm_num
        · exact absurd hc (List.not_mem_nil c)
    · intro c hc
      exact absurd hc (List.not_mem_nil c)
    · intro c hc
      exact absurd hc (List.not_mem_nil c)
    · intro c hc
      rcases List.mem_cons.mp hc with rfl | hc
      · unfold dot; norm_num
      · exact absurd hc (List.not_mem_nil c)
    · funext i
      norm_num
  · rintro ⟨y, ⟨hineq, heq⟩, hcoord⟩
    have h1 := heq _ (bug_aux_eqs ▸ List.mem_singleton.mpr rfl)
    have hdot : dot (Fin.append (fun _ => (1 : ℚ)) (fun _ => (0 : ℚ))) y
        = y (Fin.castAdd 1 0) := by
      unfold dot
      rw [Fin.sum_univ_add, Fin.sum_univ_one, Fin.sum_univ_one,
        Fin.append_left (fun _ => (1 : ℚ)) (fun _ => (0 : ℚ)) 0,
        Fin.append_right (fun _ => (1 : ℚ)) (fun _ => (0 : ℚ)) 0]
      ring
    rw [hdot] at h1
    have h2 := hcoord 0
    rw [h1] at h2
    norm_num at h2

end Cora
